import Mathlib

/-!
Verification of the field-extraction engine of `pitch_deck_scraper.py`
(`PitchDeckScraper.extract_company_name`, `extract_funding_amount`,
`extract_valuation`, `extract_founders`, `extract_market_size`).

The extractors are pure functions over strings built on Python's `re`
module.  We model strings as `List Char` and give each regular expression
used by the source a shallow embedding as a pattern value together with a
backtracking matcher `Mat` that follows Python `re` semantics:

* `re.search` scans left to right and returns the match at the leftmost
  starting position; within a position, alternatives are tried in written
  order, greedy quantifiers prefer more repetitions, lazy quantifiers
  prefer fewer.
* `re.finditer` yields non-overlapping matches, resuming after the end of
  the previous match (advancing one character after an empty match).
* Every pattern of the source has the shape `pre (body) post` with exactly
  one capturing group, so a match is rendered as the triple
  `(group0, group1, rest)`.

Python `float` amounts are modelled as `ℚ` (the source only ever parses
`\d+(\.\d+)?` and multiplies or divides by 1000, so rational arithmetic
mirrors the decimal values exactly).  Operations that can raise in Python
(`str.split` with an empty separator, list indexing, `float` parsing) are
modelled in the `Except String` monad.
-/

/-! ### Character classes (ASCII model of the Python `re` classes) -/

/-- `\s` of Python `re` on ASCII text. -/
def isSpacePy (c : Char) : Bool :=
  c = ' ' || c = '\t' || c = '\n' || c = '\r' || c = '\x0b' || c = '\x0c'

/-- `\d`. -/
def isDigitPy (c : Char) : Bool := '0' ≤ c && c ≤ '9'

/-- `[A-Z]`. -/
def isUpperPy (c : Char) : Bool := 'A' ≤ c && c ≤ 'Z'

/-- `[a-z]`. -/
def isLowerPy (c : Char) : Bool := 'a' ≤ c && c ≤ 'z'

/-- `[A-Za-z0-9\s]`, the class of the company-name patterns. -/
def isAlnumSpace (c : Char) : Bool :=
  isUpperPy c || isLowerPy c || isDigitPy c || isSpacePy c

/-- ASCII lower-casing, as used by `str.lower` and `re.IGNORECASE`
on the ASCII patterns of the source. -/
def lowerChar (c : Char) : Char :=
  if isUpperPy c then Char.ofNat (c.toNat + 32) else c

/-- String literal to character list. -/
def lc (s : String) : List Char := s.toList

/-! ### The backtracking matcher -/

/-- A match rendered as `(s1, s2, s3)`: the remainders of the input after
the `pre`, `body` and `post` parts of a pattern. -/
abbrev MRes := List Char × List Char × List Char

/-- Consume a case-sensitive literal from the front of the input. -/
def dropLit : List Char → List Char → Option (List Char)
  | [], s => some s
  | _ :: _, [] => none
  | p :: ps, c :: cs => if c = p then dropLit ps cs else none

/-- Consume a case-insensitive literal from the front of the input. -/
def dropLitCI : List Char → List Char → Option (List Char)
  | [], s => some s
  | _ :: _, [] => none
  | p :: ps, c :: cs => if lowerChar c = lowerChar p then dropLitCI ps cs else none

/-- Length of the longest prefix whose characters satisfy `p`. -/
def countWhile (p : Char → Bool) : List Char → Nat
  | [] => 0
  | c :: cs => if p c then countWhile p cs + 1 else 0

/-- Greedy repetition of a character class: try dropping `n`, `n-1`, …,
`lo` characters, preferring more. -/
def greedyRange (k : List Char → Option MRes) (s : List Char) (lo : Nat) :
    Nat → Option MRes
  | 0 => if lo = 0 then k s else none
  | n + 1 =>
    if n + 1 < lo then none
    else (k (s.drop (n + 1))).orElse (fun _ => greedyRange k s lo n)

/-- Lazy repetition of a character class: try dropping 0, 1, …, `n`
characters, preferring fewer. -/
def lazyTry (k : List Char → Option MRes) : Nat → List Char → Option MRes
  | 0, s => k s
  | n + 1, s => (k s).orElse (fun _ => lazyTry k n (s.drop 1))

/-- The regular-expression constructs used by the five extractors.  All
repetition operators of the source apply to single-character classes, so
repetition is over a class predicate; composite bounded repetitions
(`{1,2}`) are unrolled with `seq`/`opt` at pattern-construction time. -/
inductive RE : Type where
  | eps : RE
  | cls : (Char → Bool) → RE
  | lit : List Char → RE
  | litCI : List Char → RE
  | seq : RE → RE → RE
  | alt : RE → RE → RE
  | opt : RE → RE
  | starCls : (Char → Bool) → RE
  | lazyCls : (Char → Bool) → RE
  | plusCls : (Char → Bool) → RE
  | repCls : (Char → Bool) → Nat → Nat → RE

/-- Backtracking matcher in continuation-passing style.  `Mat re s k`
attempts to match `re` at the front of `s` and calls `k` on the remainder;
alternatives are explored in Python's preference order, and a failing
continuation causes backtracking into earlier choices. -/
def Mat : RE → List Char → (List Char → Option MRes) → Option MRes
  | .eps, s, k => k s
  | .cls p, s, k =>
    match s with
    | [] => none
    | c :: cs => if p c then k cs else none
  | .lit l, s, k =>
    match dropLit l s with
    | some s' => k s'
    | none => none
  | .litCI l, s, k =>
    match dropLitCI l s with
    | some s' => k s'
    | none => none
  | .seq a b, s, k => Mat a s (fun s1 => Mat b s1 k)
  | .alt a b, s, k => (Mat a s k).orElse (fun _ => Mat b s k)
  | .opt a, s, k => (Mat a s k).orElse (fun _ => k s)
  | .starCls p, s, k => greedyRange k s 0 (countWhile p s)
  | .lazyCls p, s, k => lazyTry k (countWhile p s) s
  | .plusCls p, s, k => greedyRange k s 1 (countWhile p s)
  | .repCls p lo hi, s, k => greedyRange k s lo (min hi (countWhile p s))

/-- Match `pre (body) post` at the current position. -/
def matchPBP (pre body post : RE) (s : List Char) : Option MRes :=
  Mat pre s (fun s1 => Mat body s1 (fun s2 => Mat post s2 (fun s3 => some (s1, s2, s3))))

/-- Render a raw match at position `s` as `(group0, group1, rest)`. -/
def mkRes (s : List Char) : MRes → MRes
  | (s1, s2, s3) =>
    (s.take (s.length - s3.length), s1.take (s1.length - s2.length), s3)

/-- `re.search`: leftmost match of `pre (body) post`, as
`(group0, group1, rest)`. -/
def searchPBP (pre body post : RE) : List Char → Option MRes
  | [] => (matchPBP pre body post []).map (mkRes [])
  | c :: cs =>
    match matchPBP pre body post (c :: cs) with
    | some r => some (mkRes (c :: cs) r)
    | none => searchPBP pre body post cs

/-- `re.finditer` worker: collect non-overlapping matches left to right,
resuming after each match (one character further after an empty match). -/
def finditerAux (pre body post : RE) : Nat → List Char → List (List Char × List Char)
  | 0, _ => []
  | fuel + 1, s =>
    match searchPBP pre body post s with
    | none => []
    | some (g0, g1, rest) =>
      (g0, g1) :: finditerAux pre body post fuel (if g0 = [] then rest.drop 1 else rest)

/-- `re.finditer`, yielding `(group0, group1)` per match in order of
appearance.  The fuel `s.length + 1` covers every possible match count. -/
def finditer (pre body post : RE) (s : List Char) : List (List Char × List Char) :=
  finditerAux pre body post (s.length + 1) s

/-! ### Python string helpers -/

/-- Python `str.strip()` (ASCII whitespace). -/
def pyStrip (l : List Char) : List Char :=
  ((l.dropWhile isSpacePy).reverse.dropWhile isSpacePy).reverse

/-- Worker for Python `str.split(sep)`: split at every non-overlapping
occurrence of `sep`, scanning left to right. -/
def pySplitAux (sep : List Char) : Nat → List Char → List Char → List (List Char)
  | 0, s, acc => [acc.reverse ++ s]
  | fuel + 1, s, acc =>
    match dropLit sep s with
    | some rest => acc.reverse :: pySplitAux sep fuel rest []
    | none =>
      match s with
      | [] => [acc.reverse]
      | c :: cs => pySplitAux sep fuel cs (c :: acc)

/-- Python `str.split(sep)`; `none` models the `ValueError` raised on an
empty separator. -/
def pySplit (sep s : List Char) : Option (List (List Char)) :=
  if sep = [] then none else some (pySplitAux sep (s.length + 1) s [])

/-- Does `pat` occur at the front of `s`? -/
def atFront (pat s : List Char) : Bool := (dropLit pat s).isSome

/-- Python `pat in s` substring test. -/
def hasSub (pat : List Char) : List Char → Bool
  | [] => atFront pat []
  | c :: cs => atFront pat (c :: cs) || hasSub pat cs

/-- Numeric value of a digit string. -/
def digitsVal (l : List Char) : Nat :=
  l.foldl (fun n c => n * 10 + (c.toNat - 48)) 0

/-- Python `float` on the strings matched by the amount group
`(\d+(?:\.\d+)?)`; `none` models `ValueError` on any other shape. -/
def parseDecimal (l : List Char) : Option ℚ :=
  let ip := l.takeWhile isDigitPy
  let rest := l.dropWhile isDigitPy
  if ip = [] then none
  else
    match rest with
    | [] => some (digitsVal ip : ℚ)
    | '.' :: frac =>
      if frac = [] then none
      else if frac.all isDigitPy then
        some ((digitsVal ip : ℚ) + (digitsVal frac : ℚ) / ((10 : ℚ) ^ frac.length))
      else none
    | _ => none

/-! ### The patterns of the source, one definition per regex piece -/

/-- Case-sensitive literal. -/
def L (s : String) : RE := .lit (lc s)

/-- Case-insensitive literal (patterns compiled with `re.IGNORECASE`). -/
def LCI (s : String) : RE := .litCI (lc s)

/-- Ordered alternation `a|b|c|…`, first alternative preferred. -/
def alts (a : RE) (l : List RE) : RE := l.foldl .alt a

/-- `(?:raising|raise|seeking|investment of|funding of|looking for)` of the
funding pattern (line 72). -/
def fundLead : RE :=
  alts (L "raising") [L "raise", L "seeking", L "investment of", L "funding of", L "looking for"]

/-- The shared capturing group `(\d+(?:\.\d+)?)` of the three money
patterns (lines 72, 94, 129). -/
def amountBody : RE :=
  .seq (.plusCls isDigitPy) (.opt (.seq (.cls (fun c => c = '.')) (.plusCls isDigitPy)))

/-- `(?:M|MM|Million|million|K|k|thousand|Thousand)` (line 72). -/
def fundUnit : RE :=
  alts (L "M") [L "MM", L "Million", L "million", L "K", L "k", L "thousand", L "Thousand"]

/-- Everything before the capturing group in the funding pattern:
`(?:…)?\s*\$?`. -/
def fundPre : RE :=
  .seq (.opt fundLead) (.seq (.starCls isSpacePy) (.opt (.cls (fun c => c = '$'))))

/-- Everything after the capturing group in the funding pattern: `\s*(?:…)`. -/
def fundPost : RE := .seq (.starCls isSpacePy) fundUnit

/-- `(?:valuation|valued at|worth|post-money|pre-money)` (line 94,
`re.IGNORECASE`). -/
def valCue : RE :=
  alts (LCI "valuation") [LCI "valued at", LCI "worth", LCI "post-money", LCI "pre-money"]

/-- `(?:M|MM|Million|million|B|billion|Billion)` (line 94, `re.IGNORECASE`). -/
def valUnit : RE :=
  alts (LCI "M") [LCI "MM", LCI "Million", LCI "million", LCI "B", LCI "billion", LCI "Billion"]

/-- `.*?` without `re.DOTALL`: lazily matches any characters except
newline.  The valuation and market-size patterns are compiled with
`re.IGNORECASE` only, so their dot does NOT cross line breaks. -/
def dotLazy : RE := .lazyCls (fun c => c != '\n')

/-- Everything before the capturing group in the valuation pattern. -/
def valPre : RE := .seq valCue (.seq dotLazy (.opt (.cls (fun c => c = '$'))))

/-- Everything after the capturing group in the valuation pattern. -/
def valPost : RE := .seq (.starCls isSpacePy) valUnit

/-- `(?:TAM|Total Addressable Market|Market Size|Market Opportunity)`
(line 129, `re.IGNORECASE`). -/
def mktCue : RE :=
  alts (LCI "TAM") [LCI "Total Addressable Market", LCI "Market Size", LCI "Market Opportunity"]

/-- `(?:B|billion|Billion|T|trillion|Trillion)` (line 129, `re.IGNORECASE`). -/
def mktUnit : RE :=
  alts (LCI "B") [LCI "billion", LCI "Billion", LCI "T", LCI "trillion", LCI "Trillion"]

/-- Everything before the capturing group in the market-size pattern. -/
def mktPre : RE := .seq mktCue (.seq dotLazy (.opt (.cls (fun c => c = '$'))))

/-- Everything after the capturing group in the market-size pattern. -/
def mktPost : RE := .seq (.starCls isSpacePy) mktUnit

/-- `(?:About|Company:?|About Us:?)` (line 56). -/
def coCue : RE :=
  alts (L "About")
    [.seq (L "Company") (.opt (.cls (fun c => c = ':'))),
     .seq (L "About Us") (.opt (.cls (fun c => c = ':')))]

/-- `(?:Inc\.?|LLC|Corp\.?|Co\.?)` (lines 56 and 57). -/
def coSuffix : RE :=
  alts (.seq (L "Inc") (.opt (.cls (fun c => c = '.'))))
    [L "LLC",
     .seq (L "Corp") (.opt (.cls (fun c => c = '.'))),
     .seq (L "Co") (.opt (.cls (fun c => c = '.')))]

/-- Capturing group of company pattern 1:
`([A-Z][A-Za-z0-9\s]{2,30}(?:Inc\.?|LLC|Corp\.?|Co\.?)?)`. -/
def coBody1 : RE :=
  .seq (.cls isUpperPy) (.seq (.repCls isAlnumSpace 2 30) (.opt coSuffix))

/-- Capturing group of company pattern 2 (suffix mandatory):
`([A-Z][A-Za-z0-9\s]{2,30}(?:Inc\.?|LLC|Corp\.?|Co\.?))`. -/
def coBody2 : RE :=
  .seq (.cls isUpperPy) (.seq (.repCls isAlnumSpace 2 30) coSuffix)

/-- Everything before the capturing group in company pattern 1: `(?:…)\s+`. -/
def coPre1 : RE := .seq coCue (.plusCls isSpacePy)

/-- Everything after the capturing group in company pattern 2:
`\s+(?:Pitch|Deck|Presentation)`. -/
def coPost2 : RE := .seq (.plusCls isSpacePy) (alts (L "Pitch") [L "Deck", L "Presentation"])

/-- `(?:Team|Founders|Management)` (line 114, `re.IGNORECASE`). -/
def teamCue : RE := alts (LCI "Team") [LCI "Founders", LCI "Management"]

/-- `(?:Market|Product|Traction|Financials|Competition)` (line 114). -/
def sectCue : RE :=
  alts (LCI "Market") [LCI "Product", LCI "Traction", LCI "Financials", LCI "Competition"]

/-- Team-section pattern prelude: cue followed by `.*?` compiled with
`re.DOTALL`, so here the dot does cross line breaks. -/
def secPre : RE := .seq teamCue (.lazyCls (fun _ => true))

/-- `[A-Z][a-z]+`, one capitalized word of the founder-name pattern
(line 119). -/
def nameWord : RE := .seq (.cls isUpperPy) (.plusCls isLowerPy)

/-- `\s[A-Z][a-z]+`, one further capitalized word. -/
def nameExtra : RE := .seq (.cls isSpacePy) nameWord

/-- Capturing group of the founder-name pattern:
`([A-Z][a-z]+(?:\s[A-Z][a-z]+){1,2})`; the greedy `{1,2}` is unrolled as
one mandatory and one optional repetition. -/
def founderBody : RE := .seq nameWord (.seq nameExtra (.opt nameExtra))

/-- `(?:,|\.|\n|\s)?` separator after the name. -/
def founderSep : RE :=
  .opt (alts (.cls (fun c => c = ','))
    [.cls (fun c => c = '.'), .cls (fun c => c = '\n'), .cls isSpacePy])

/-- `(?:CEO|CTO|CFO|COO|Founder|Co-Founder)` (line 119). -/
def titleAlt : RE :=
  alts (L "CEO") [L "CTO", L "CFO", L "COO", L "Founder", L "Co-Founder"]

/-- Everything after the capturing group in the founder-name pattern. -/
def founderPost : RE := .seq founderSep (.seq (.starCls isSpacePy) titleAlt)

/-! ### The five extractors (lines 49-142 of the source) -/

/-- `match.group(0).split(match.group(1))[1].strip()` of lines 78, 99 and
134: `Except.error` models the `ValueError` of splitting on an empty
separator and the `IndexError` of a missing element 1. -/
def unitOf (g0 g1 : List Char) : Except String (List Char) :=
  match pySplit g1 g0 with
  | none => Except.error "ValueError: empty separator"
  | some parts =>
    match parts.get? 1 with
    | none => Except.error "IndexError: list index out of range"
    | some u => Except.ok (pyStrip u)

/-- Loop body of `extract_funding_amount` (lines 76-85): unit extraction,
`float` conversion and thousands normalization for one match. -/
def fundingStep (m : List Char × List Char) : Except String ℚ :=
  match unitOf m.1 m.2 with
  | .error e => .error e
  | .ok u =>
    match parseDecimal m.2 with
    | none => .error "ValueError: float"
    | some amt =>
      let ul := u.map lowerChar
      .ok (if ul.contains 'k' || hasSub (lc "thousand") ul then amt / 1000 else amt)

/-- `PitchDeckScraper.extract_funding_amount` (lines 67-87). -/
def extract_funding_amount (text : List Char) : Except String (Option (List ℚ)) :=
  if text = [] then Except.ok none
  else
    match (finditer fundPre amountBody fundPost text).mapM fundingStep with
    | .error e => .error e
    | .ok amounts => .ok (if amounts = [] then none else some amounts)

/-- `PitchDeckScraper.extract_valuation` (lines 89-107). -/
def extract_valuation (text : List Char) : Except String (Option ℚ) :=
  if text = [] then Except.ok none
  else
    match searchPBP valPre amountBody valPost text with
    | none => Except.ok none
    | some (g0, g1, _) =>
      match unitOf g0 g1 with
      | .error e => .error e
      | .ok u =>
        match parseDecimal g1 with
        | none => .error "ValueError: float"
        | some amt =>
          let ul := u.map lowerChar
          .ok (some (if ul.contains 'b' || hasSub (lc "billion") ul then amt * 1000 else amt))

/-- `PitchDeckScraper.extract_market_size` (lines 124-142). -/
def extract_market_size (text : List Char) : Except String (Option ℚ) :=
  if text = [] then Except.ok none
  else
    match searchPBP mktPre amountBody mktPost text with
    | none => Except.ok none
    | some (g0, g1, _) =>
      match unitOf g0 g1 with
      | .error e => .error e
      | .ok u =>
        match parseDecimal g1 with
        | none => .error "ValueError: float"
        | some amt =>
          let ul := u.map lowerChar
          .ok (some (if ul.contains 't' || hasSub (lc "trillion") ul then amt * 1000 else amt))

/-- `PitchDeckScraper.extract_company_name` (lines 49-65): pattern 1 is
searched over the whole text first, pattern 2 only if pattern 1 has no
match anywhere. -/
def extract_company_name (text : List Char) : Option (List Char) :=
  if text = [] then none
  else
    match searchPBP coPre1 coBody1 .eps text with
    | some (_, g1, _) => some (pyStrip g1)
    | none =>
      match searchPBP .eps coBody2 coPost2 text with
      | some (_, g1, _) => some (pyStrip g1)
      | none => none

/-- `PitchDeckScraper.extract_founders` (lines 109-122): locate the team
section (group 0 of the section search), then `re.findall` of the
name+title pattern inside it, collecting group 1 of each match. -/
def extract_founders (text : List Char) : Option (List (List Char)) :=
  if text = [] then none
  else
    match searchPBP secPre .eps sectCue text with
    | none => none
    | some (g0, _, _) =>
      let fs := (finditer .eps founderBody founderPost g0).map (fun m => m.2)
      if fs = [] then none else some fs

deriving instance DecidableEq for Except

/-! ### List helper lemmas -/

theorem take_len_append {α : Type} (u v : List α) : (u ++ v).take u.length = u := by
  induction u with
  | nil => simp
  | cons c cs ih => simp [ih]

theorem get1_of_two_le {α : Type} {l : List α} (h : 2 ≤ l.length) : ∃ x, l.get? 1 = some x := by
  match l with
  | [] => simp at h
  | [_] => simp at h
  | _ :: x :: _ => exact ⟨x, rfl⟩

theorem takeWhile_append_all {p : Char → Bool} {d : List Char}
    (hd : ∀ c ∈ d, p c = true) (l : List Char) :
    (d ++ l).takeWhile p = d ++ l.takeWhile p := by
  induction d with
  | nil => simp
  | cons c cs ih =>
    have hc : p c = true := hd c (by simp)
    simp only [List.cons_append, List.takeWhile_cons, hc, if_true]
    rw [ih (fun x hx => hd x (by simp [hx]))]

theorem dropWhile_append_all {p : Char → Bool} {d : List Char}
    (hd : ∀ c ∈ d, p c = true) (l : List Char) :
    (d ++ l).dropWhile p = l.dropWhile p := by
  induction d with
  | nil => simp
  | cons c cs ih =>
    have hc : p c = true := hd c (by simp)
    simp only [List.cons_append, List.dropWhile_cons, hc, if_true]
    exact ih (fun x hx => hd x (by simp [hx]))

/-! ### Declarative semantics of the pattern constructs -/

/-- `Matches re x`: the string `x` is one of the strings the construct
`re` can consume, independently of matcher strategy. -/
inductive Matches : RE → List Char → Prop where
  | eps : Matches .eps []
  | cls {p : Char → Bool} {c : Char} : p c = true → Matches (.cls p) [c]
  | lit {l : List Char} : Matches (.lit l) l
  | litCI {l u : List Char} : u.map lowerChar = l.map lowerChar → Matches (.litCI l) u
  | seq {a b : RE} {x y : List Char} :
      Matches a x → Matches b y → Matches (.seq a b) (x ++ y)
  | altL {a b : RE} {x : List Char} : Matches a x → Matches (.alt a b) x
  | altR {a b : RE} {x : List Char} : Matches b x → Matches (.alt a b) x
  | optSome {a : RE} {x : List Char} : Matches a x → Matches (.opt a) x
  | optNone {a : RE} : Matches (.opt a) []
  | starCls {p : Char → Bool} {x : List Char} :
      (∀ c ∈ x, p c = true) → Matches (.starCls p) x
  | lazyCls {p : Char → Bool} {x : List Char} :
      (∀ c ∈ x, p c = true) → Matches (.lazyCls p) x
  | plusCls {p : Char → Bool} {x : List Char} :
      x ≠ [] → (∀ c ∈ x, p c = true) → Matches (.plusCls p) x
  | repCls {p : Char → Bool} {lo hi : Nat} {x : List Char} :
      lo ≤ x.length → x.length ≤ hi → (∀ c ∈ x, p c = true) →
      Matches (.repCls p lo hi) x

/-! ### Soundness of the matcher with respect to `Matches` -/

theorem orElse_eq_some {x : Option MRes} {f : Unit → Option MRes} {r : MRes}
    (h : x.orElse f = some r) : x = some r ∨ (x = none ∧ f () = some r) := by
  cases x with
  | none => right; exact ⟨rfl, h⟩
  | some v => left; exact h

theorem dropLit_sound : ∀ (l s s' : List Char), dropLit l s = some s' → s = l ++ s' := by
  intro l
  induction l with
  | nil => intro s s' h; simp [dropLit] at h; simp [h]
  | cons p ps ih =>
    intro s s' h
    match s with
    | [] => simp [dropLit] at h
    | c :: cs =>
      simp only [dropLit] at h
      by_cases hc : c = p
      · simp [hc] at h
        simp [hc, ih cs s' h]
      · simp [hc] at h

theorem dropLitCI_sound : ∀ (l s s' : List Char), dropLitCI l s = some s' →
    ∃ u, s = u ++ s' ∧ u.map lowerChar = l.map lowerChar := by
  intro l
  induction l with
  | nil =>
    intro s s' h; simp [dropLitCI] at h
    exact ⟨[], by simp [h], by simp⟩
  | cons p ps ih =>
    intro s s' h
    match s with
    | [] => simp [dropLitCI] at h
    | c :: cs =>
      simp only [dropLitCI] at h
      by_cases hc : lowerChar c = lowerChar p
      · simp [hc] at h
        obtain ⟨u, hu, hm⟩ := ih cs s' h
        exact ⟨c :: u, by simp [hu], by simp [hm, hc]⟩
      · simp [hc] at h

theorem countWhile_le_length (p : Char → Bool) : ∀ s : List Char, countWhile p s ≤ s.length := by
  intro s
  induction s with
  | nil => simp [countWhile]
  | cons c cs ih =>
    simp only [countWhile, List.length_cons]
    by_cases hc : p c
    · simp [hc]; omega
    · simp [hc]

theorem mem_take_of_le_countWhile (p : Char → Bool) :
    ∀ (s : List Char) (i : Nat), i ≤ countWhile p s → ∀ c ∈ s.take i, p c = true := by
  intro s
  induction s with
  | nil => intro i _ c hc; simp at hc
  | cons d cs ih =>
    intro i hi c hc
    by_cases hd : p d
    · simp [countWhile, hd] at hi
      match i with
      | 0 => simp at hc
      | j + 1 =>
        simp only [List.take_succ_cons, List.mem_cons] at hc
        rcases hc with hc | hc
        · rw [hc]; exact hd
        · exact ih j (by omega) c hc
    · simp [countWhile, hd] at hi
      have hz : i = 0 := by omega
      subst hz
      simp at hc

theorem greedyRange_sound (k : List Char → Option MRes) (s : List Char) (lo : Nat) :
    ∀ (n : Nat) (r : MRes), greedyRange k s lo n = some r →
      ∃ i, lo ≤ i ∧ i ≤ n ∧ k (s.drop i) = some r := by
  intro n
  induction n with
  | zero =>
    intro r h
    simp only [greedyRange] at h
    by_cases hlo : lo = 0
    · simp [hlo] at h; exact ⟨0, by omega, by omega, by simpa using h⟩
    · simp [hlo] at h
  | succ n ih =>
    intro r h
    simp only [greedyRange] at h
    by_cases hlt : n + 1 < lo
    · simp [hlt] at h
    · simp only [hlt, if_false] at h
      rcases orElse_eq_some h with h1 | ⟨_, h2⟩
      · exact ⟨n + 1, by omega, Nat.le_refl _, h1⟩
      · obtain ⟨i, h3, h4, h5⟩ := ih r h2
        exact ⟨i, h3, by omega, h5⟩

theorem lazyTry_sound (k : List Char → Option MRes) :
    ∀ (n : Nat) (s : List Char) (r : MRes), lazyTry k n s = some r →
      ∃ i, i ≤ n ∧ k (s.drop i) = some r := by
  intro n
  induction n with
  | zero =>
    intro s r h
    exact ⟨0, Nat.le_refl _, by simpa [lazyTry] using h⟩
  | succ n ih =>
    intro s r h
    simp only [lazyTry] at h
    rcases orElse_eq_some h with h1 | ⟨_, h2⟩
    · exact ⟨0, by omega, by simpa using h1⟩
    · obtain ⟨i, h3, h4⟩ := ih (s.drop 1) r h2
      rw [List.drop_drop] at h4
      exact ⟨1 + i, by omega, h4⟩

theorem Mat_sound (re : RE) : ∀ (s : List Char) (k : List Char → Option MRes) (r : MRes),
    Mat re s k = some r → ∃ u s', s = u ++ s' ∧ Matches re u ∧ k s' = some r := by
  induction re with
  | eps =>
    intro s k r h
    exact ⟨[], s, rfl, Matches.eps, h⟩
  | cls p =>
    intro s k r h
    match s with
    | [] => simp [Mat] at h
    | c :: cs =>
      simp only [Mat] at h
      by_cases hc : p c
      · simp [hc] at h
        exact ⟨[c], cs, rfl, Matches.cls hc, h⟩
      · simp [hc] at h
  | lit l =>
    intro s k r h
    simp only [Mat] at h
    match hd : dropLit l s with
    | none => rw [hd] at h; exact absurd h (by simp)
    | some s' =>
      rw [hd] at h
      exact ⟨l, s', dropLit_sound l s s' hd, Matches.lit, h⟩
  | litCI l =>
    intro s k r h
    simp only [Mat] at h
    match hd : dropLitCI l s with
    | none => rw [hd] at h; exact absurd h (by simp)
    | some s' =>
      rw [hd] at h
      obtain ⟨u, hu, hm⟩ := dropLitCI_sound l s s' hd
      exact ⟨u, s', hu, Matches.litCI hm, h⟩
  | seq a b iha ihb =>
    intro s k r h
    simp only [Mat] at h
    obtain ⟨u, s1, hs, hma, h2⟩ := iha s _ r h
    obtain ⟨v, s2, hs1, hmb, h3⟩ := ihb s1 _ r h2
    exact ⟨u ++ v, s2, by rw [hs, hs1, List.append_assoc], Matches.seq hma hmb, h3⟩
  | alt a b iha ihb =>
    intro s k r h
    simp only [Mat] at h
    rcases orElse_eq_some h with h1 | ⟨_, h2⟩
    · obtain ⟨u, s', hs, hm, hk⟩ := iha s k r h1
      exact ⟨u, s', hs, Matches.altL hm, hk⟩
    · obtain ⟨u, s', hs, hm, hk⟩ := ihb s k r h2
      exact ⟨u, s', hs, Matches.altR hm, hk⟩
  | opt a iha =>
    intro s k r h
    simp only [Mat] at h
    rcases orElse_eq_some h with h1 | ⟨_, h2⟩
    · obtain ⟨u, s', hs, hm, hk⟩ := iha s k r h1
      exact ⟨u, s', hs, Matches.optSome hm, hk⟩
    · exact ⟨[], s, rfl, Matches.optNone, h2⟩
  | starCls p =>
    intro s k r h
    simp only [Mat] at h
    obtain ⟨i, _, hi, hk⟩ := greedyRange_sound k s 0 _ r h
    exact ⟨s.take i, s.drop i, (List.take_append_drop i s).symm,
      Matches.starCls (mem_take_of_le_countWhile p s i hi), hk⟩
  | lazyCls p =>
    intro s k r h
    simp only [Mat] at h
    obtain ⟨i, hi, hk⟩ := lazyTry_sound k _ s r h
    exact ⟨s.take i, s.drop i, (List.take_append_drop i s).symm,
      Matches.lazyCls (mem_take_of_le_countWhile p s i hi), hk⟩
  | plusCls p =>
    intro s k r h
    simp only [Mat] at h
    obtain ⟨i, h1, hi, hk⟩ := greedyRange_sound k s 1 _ r h
    have hlen : (s.take i).length = i := by
      simp [List.length_take]
      exact Nat.le_trans hi (countWhile_le_length p s)
    refine ⟨s.take i, s.drop i, (List.take_append_drop i s).symm,
      Matches.plusCls ?_ (mem_take_of_le_countWhile p s i hi), hk⟩
    intro hnil
    rw [hnil] at hlen
    simp at hlen
    omega
  | repCls p lo hi =>
    intro s k r h
    simp only [Mat] at h
    obtain ⟨i, h1, h2, hk⟩ := greedyRange_sound k s lo _ r h
    have hcw : i ≤ countWhile p s := Nat.le_trans h2 (Nat.min_le_right _ _)
    have hhi : i ≤ hi := Nat.le_trans h2 (Nat.min_le_left _ _)
    have hlen : (s.take i).length = i := by
      simp [List.length_take]
      exact Nat.le_trans hcw (countWhile_le_length p s)
    exact ⟨s.take i, s.drop i, (List.take_append_drop i s).symm,
      Matches.repCls (by omega) (by omega) (mem_take_of_le_countWhile p s i hcw), hk⟩

/-! ### Soundness of search and finditer -/

theorem matchPBP_sound {pre body post : RE} {s s1 s2 s3 : List Char}
    (h : matchPBP pre body post s = some (s1, s2, s3)) :
    ∃ u v w, s = u ++ s1 ∧ s1 = v ++ s2 ∧ s2 = w ++ s3 ∧
      Matches pre u ∧ Matches body v ∧ Matches post w := by
  unfold matchPBP at h
  obtain ⟨u, t1, hs, hmu, h2⟩ := Mat_sound pre s _ _ h
  obtain ⟨v, t2, ht1, hmv, h3⟩ := Mat_sound body t1 _ _ h2
  obtain ⟨w, t3, ht2, hmw, h4⟩ := Mat_sound post t2 _ _ h3
  have he : t1 = s1 ∧ t2 = s2 ∧ t3 = s3 := by
    have := Option.some.inj h4
    exact ⟨congrArg Prod.fst this, congrArg Prod.fst (congrArg Prod.snd this),
      congrArg Prod.snd (congrArg Prod.snd this)⟩
  obtain ⟨e1, e2, e3⟩ := he
  subst e1; subst e2; subst e3
  exact ⟨u, v, w, hs, ht1, ht2, hmu, hmv, hmw⟩

theorem mkRes_decomp {pre body post : RE} {s s1 s2 s3 : List Char}
    (h : matchPBP pre body post s = some (s1, s2, s3)) :
    ∃ a c, (mkRes s (s1, s2, s3)).1 = a ++ (mkRes s (s1, s2, s3)).2.1 ++ c ∧
      Matches pre a ∧ Matches body (mkRes s (s1, s2, s3)).2.1 ∧ Matches post c ∧
      (mkRes s (s1, s2, s3)).2.2 = s3 := by
  obtain ⟨u, v, w, hs, ht1, ht2, hmu, hmv, hmw⟩ := matchPBP_sound h
  have hg1 : s1.take (s1.length - s2.length) = v := by
    rw [ht1]
    have hl : (v ++ s2).length - s2.length = v.length := by
      simp only [List.length_append]; omega
    rw [hl]
    exact take_len_append v s2
  have hg0 : s.take (s.length - s3.length) = u ++ v ++ w := by
    have hs' : s = (u ++ v ++ w) ++ s3 := by
      rw [hs, ht1, ht2]; simp [List.append_assoc]
    rw [hs']
    have hl : ((u ++ v ++ w) ++ s3).length - s3.length = (u ++ v ++ w).length := by
      simp only [List.length_append]; omega
    rw [hl]
    exact take_len_append (u ++ v ++ w) s3
  refine ⟨u, w, ?_, hmu, ?_, hmw, rfl⟩
  · show s.take (s.length - s3.length) = u ++ s1.take (s1.length - s2.length) ++ w
    rw [hg0, hg1]
  · show Matches body (s1.take (s1.length - s2.length))
    rw [hg1]
    exact hmv

theorem searchPBP_sound {pre body post : RE} : ∀ {s g0 g1 rest : List Char},
    searchPBP pre body post s = some (g0, g1, rest) →
    ∃ a c, g0 = a ++ g1 ++ c ∧ Matches pre a ∧ Matches body g1 ∧ Matches post c := by
  intro s
  induction s with
  | nil =>
    intro g0 g1 rest h
    simp only [searchPBP] at h
    match hm : matchPBP pre body post [] with
    | none => rw [hm] at h; simp at h
    | some (s1, s2, s3) =>
      rw [hm] at h
      have h2 : mkRes [] (s1, s2, s3) = (g0, g1, rest) := Option.some.inj h
      obtain ⟨a, c, hd, hma, hmb, hmc, _⟩ := mkRes_decomp hm
      rw [h2] at hd hmb
      exact ⟨a, c, hd, hma, hmb, hmc⟩
  | cons ch cs ih =>
    intro g0 g1 rest h
    simp only [searchPBP] at h
    match hm : matchPBP pre body post (ch :: cs) with
    | some (s1, s2, s3) =>
      rw [hm] at h
      simp only [Option.some.injEq] at h
      obtain ⟨a, c, hd, hma, hmb, hmc, _⟩ := mkRes_decomp hm
      rw [h] at hd hmb
      exact ⟨a, c, hd, hma, hmb, hmc⟩
    | none =>
      rw [hm] at h
      exact ih h

theorem finditerAux_sound {pre body post : RE} : ∀ (fuel : Nat) (s : List Char)
    (m : List Char × List Char), m ∈ finditerAux pre body post fuel s →
    ∃ a c, m.1 = a ++ m.2 ++ c ∧ Matches pre a ∧ Matches body m.2 ∧ Matches post c := by
  intro fuel
  induction fuel with
  | zero => intro s m hm; simp [finditerAux] at hm
  | succ fuel ih =>
    intro s m hm
    simp only [finditerAux] at hm
    match hs : searchPBP pre body post s with
    | none => rw [hs] at hm; simp at hm
    | some (g0, g1, rest) =>
      rw [hs] at hm
      simp only [List.mem_cons] at hm
      rcases hm with hm | hm
      · subst hm
        exact searchPBP_sound hs
      · exact ih _ m hm

theorem finditer_sound {pre body post : RE} {s : List Char}
    {m : List Char × List Char} (hm : m ∈ finditer pre body post s) :
    ∃ a c, m.1 = a ++ m.2 ++ c ∧ Matches pre a ∧ Matches body m.2 ∧ Matches post c :=
  finditerAux_sound _ s m hm

/-! ### The split step never fails on a real match -/

theorem dropLit_self (l : List Char) : ∀ r : List Char, dropLit l (l ++ r) = some r := by
  induction l with
  | nil => intro r; rfl
  | cons c cs ih => intro r; simp [dropLit, ih]

theorem pySplitAux_ne_nil (sep : List Char) :
    ∀ (fuel : Nat) (s acc : List Char), pySplitAux sep fuel s acc ≠ [] := by
  intro fuel
  induction fuel with
  | zero => intro s acc; simp [pySplitAux]
  | succ fuel ih =>
    intro s acc
    simp only [pySplitAux]
    match dropLit sep s with
    | some rest => simp
    | none => match s with
      | [] => simp
      | c :: cs => exact ih cs (c :: acc)

theorem pySplitAux_two (sep : List Char) (_hsep : sep ≠ []) :
    ∀ (fuel : Nat) (a b acc : List Char), (a ++ sep ++ b).length < fuel →
    2 ≤ (pySplitAux sep fuel (a ++ sep ++ b) acc).length := by
  intro fuel
  induction fuel with
  | zero => intro a b acc h; omega
  | succ fuel ih =>
    intro a b acc hlen
    simp only [pySplitAux]
    match hd : dropLit sep (a ++ sep ++ b) with
    | some rest =>
      simp only [List.length_cons]
      have := pySplitAux_ne_nil sep fuel rest []
      have : 0 < (pySplitAux sep fuel rest []).length := List.length_pos.mpr this
      omega
    | none =>
      match a with
      | [] =>
        exfalso
        rw [List.nil_append] at hd
        rw [dropLit_self sep b] at hd
        exact absurd hd (by simp)
      | ch :: a' =>
        have hcs : (ch :: a') ++ sep ++ b = ch :: (a' ++ sep ++ b) := by simp
        rw [hcs]
        have hlen' : (a' ++ sep ++ b).length < fuel := by
          rw [hcs] at hlen; simp at hlen; simp; omega
        exact ih a' b (ch :: acc) hlen'

theorem unitOf_ok {g0 g1 : List Char} (h1 : g1 ≠ [])
    (h0 : ∃ a c, g0 = a ++ g1 ++ c) : ∃ u, unitOf g0 g1 = .ok u := by
  obtain ⟨a, c, hg⟩ := h0
  have h2 : 2 ≤ (pySplitAux g1 (g0.length + 1) g0 []).length := by
    rw [hg]
    exact pySplitAux_two g1 h1 _ a c [] (by omega)
  obtain ⟨x, hx⟩ := get1_of_two_le h2
  refine ⟨pyStrip x, ?_⟩
  unfold unitOf pySplit
  rw [if_neg h1]
  simp only [hx]

/-! ### Inversion lemmas for `Matches` -/

theorem matches_cls {p : Char → Bool} {x : List Char} (h : Matches (.cls p) x) :
    ∃ c, x = [c] ∧ p c = true := by
  cases h with
  | cls hc => exact ⟨_, rfl, hc⟩

theorem matches_lit {l x : List Char} (h : Matches (.lit l) x) : x = l := by
  cases h with
  | lit => rfl

theorem matches_seq {a b : RE} {x : List Char} (h : Matches (.seq a b) x) :
    ∃ y z, x = y ++ z ∧ Matches a y ∧ Matches b z := by
  cases h with
  | seq hy hz => exact ⟨_, _, rfl, hy, hz⟩

theorem matches_alt {a b : RE} {x : List Char} (h : Matches (.alt a b) x) :
    Matches a x ∨ Matches b x := by
  cases h with
  | altL hx => exact Or.inl hx
  | altR hx => exact Or.inr hx

theorem matches_opt {a : RE} {x : List Char} (h : Matches (.opt a) x) :
    x = [] ∨ Matches a x := by
  cases h with
  | optSome hx => exact Or.inr hx
  | optNone => exact Or.inl rfl

theorem matches_plusCls {p : Char → Bool} {x : List Char} (h : Matches (.plusCls p) x) :
    x ≠ [] ∧ ∀ c ∈ x, p c = true := by
  cases h with
  | plusCls hne hall => exact ⟨hne, hall⟩

theorem matches_repCls {p : Char → Bool} {lo hi : Nat} {x : List Char}
    (h : Matches (.repCls p lo hi) x) :
    lo ≤ x.length ∧ x.length ≤ hi ∧ ∀ c ∈ x, p c = true := by
  cases h with
  | repCls h1 h2 h3 => exact ⟨h1, h2, h3⟩

theorem matches_lazyCls {p : Char → Bool} {x : List Char} (h : Matches (.lazyCls p) x) :
    ∀ c ∈ x, p c = true := by
  cases h with
  | lazyCls hall => exact hall

/-! ### The amount group always parses -/

theorem amount_shape {x : List Char} (h : Matches amountBody x) :
    ∃ d f, x = d ++ f ∧ d ≠ [] ∧ (∀ c ∈ d, isDigitPy c = true) ∧
      (f = [] ∨ ∃ e, f = '.' :: e ∧ e ≠ [] ∧ (∀ c ∈ e, isDigitPy c = true)) := by
  unfold amountBody at h
  obtain ⟨d, f, hx, hd, hf⟩ := matches_seq h
  obtain ⟨hdne, hdall⟩ := matches_plusCls hd
  refine ⟨d, f, hx, hdne, hdall, ?_⟩
  rcases matches_opt hf with hf0 | hfr
  · exact Or.inl hf0
  · obtain ⟨y, e, hfe, hy, he⟩ := matches_seq hfr
    obtain ⟨c, hc, hcd⟩ := matches_cls hy
    obtain ⟨hene, heall⟩ := matches_plusCls he
    have hcdot : c = '.' := by simpa using hcd
    right
    exact ⟨e, by rw [hfe, hc, hcdot]; rfl, hene, heall⟩

theorem amount_ne_nil {x : List Char} (h : Matches amountBody x) : x ≠ [] := by
  obtain ⟨d, f, hx, hdne, _, _⟩ := amount_shape h
  rw [hx]
  intro hc
  rcases List.append_eq_nil.mp hc with ⟨h1, _⟩
  exact hdne h1

theorem parseDecimal_ok {x : List Char} (h : Matches amountBody x) :
    ∃ q, parseDecimal x = some q := by
  obtain ⟨d, f, hx, hdne, hdall, hf⟩ := amount_shape h
  subst hx
  unfold parseDecimal
  rcases hf with hf0 | ⟨e, hfe, hene, heall⟩
  · subst hf0
    rw [takeWhile_append_all hdall, dropWhile_append_all hdall]
    simp only [List.takeWhile_nil, List.dropWhile_nil, List.append_nil]
    rw [if_neg hdne]
    exact ⟨_, rfl⟩
  · subst hfe
    have hdot : isDigitPy '.' = false := by decide
    have hall : e.all isDigitPy = true := List.all_eq_true.mpr heall
    rw [takeWhile_append_all hdall, dropWhile_append_all hdall]
    simp only [List.takeWhile_cons, List.dropWhile_cons, hdot, Bool.false_eq_true,
      if_false, List.append_nil]
    rw [if_neg hdne]
    simp only [hall, if_true, if_neg hene]
    exact ⟨_, rfl⟩

/-! ### `mapM` over `Except` succeeds elementwise -/

theorem mapM_ok_of_all {α β : Type} (f : α → Except String β) :
    ∀ l : List α, (∀ x ∈ l, ∃ y, f x = .ok y) →
      ∃ ys : List β, l.mapM f = .ok ys ∧ ys.length = l.length := by
  intro l
  induction l with
  | nil => exact fun _ => ⟨[], rfl, rfl⟩
  | cons x l ih =>
    intro hall
    obtain ⟨y, hy⟩ := hall x (by simp)
    obtain ⟨ys, hys, hlen⟩ := ih (fun z hz => hall z (by simp [hz]))
    refine ⟨y :: ys, ?_, by simp [hlen]⟩
    rw [List.mapM_cons, hy, hys]
    rfl

/-! ### Each funding match is processed without error -/

theorem fundingStep_ok {m : List Char × List Char}
    (hm : ∃ a c, m.1 = a ++ m.2 ++ c) (hb : Matches amountBody m.2) :
    ∃ q, fundingStep m = .ok q := by
  obtain ⟨u, hu⟩ := unitOf_ok (amount_ne_nil hb) hm
  obtain ⟨q0, hq⟩ := parseDecimal_ok hb
  refine ⟨if (u.map lowerChar).contains 'k' || hasSub (lc "thousand") (u.map lowerChar) then
    q0 / 1000 else q0, ?_⟩
  simp only [fundingStep, hu, hq]

theorem fundingStep_all_ok (t : List Char) :
    ∀ m ∈ finditer fundPre amountBody fundPost t, ∃ q, fundingStep m = .ok q := by
  intro m hm
  obtain ⟨a, c, hd, _, hb, _⟩ := finditer_sound hm
  exact fundingStep_ok ⟨a, c, hd⟩ hb

theorem extract_funding_amount_ok (t : List Char) :
    ∃ v, extract_funding_amount t = .ok v := by
  by_cases ht : t = []
  · exact ⟨none, by simp [extract_funding_amount, ht]⟩
  · obtain ⟨ys, hys, _⟩ := mapM_ok_of_all fundingStep _ (fundingStep_all_ok t)
    refine ⟨if ys = [] then none else some ys, ?_⟩
    simp only [extract_funding_amount, if_neg ht, hys]

theorem extract_valuation_ok (t : List Char) :
    ∃ v, extract_valuation t = .ok v := by
  by_cases ht : t = []
  · exact ⟨none, by simp [extract_valuation, ht]⟩
  · match hs : searchPBP valPre amountBody valPost t with
    | none => exact ⟨none, by simp only [extract_valuation, if_neg ht, hs]⟩
    | some (g0, g1, rest) =>
      obtain ⟨a, c, hd, _, hb, _⟩ := searchPBP_sound hs
      obtain ⟨u, hu⟩ := unitOf_ok (amount_ne_nil hb) ⟨a, c, hd⟩
      obtain ⟨q0, hq⟩ := parseDecimal_ok hb
      refine ⟨some (if (u.map lowerChar).contains 'b' ||
        hasSub (lc "billion") (u.map lowerChar) then q0 * 1000 else q0), ?_⟩
      simp only [extract_valuation, if_neg ht, hs, hu, hq]

theorem extract_market_size_ok (t : List Char) :
    ∃ v, extract_market_size t = .ok v := by
  by_cases ht : t = []
  · exact ⟨none, by simp [extract_market_size, ht]⟩
  · match hs : searchPBP mktPre amountBody mktPost t with
    | none => exact ⟨none, by simp only [extract_market_size, if_neg ht, hs]⟩
    | some (g0, g1, rest) =>
      obtain ⟨a, c, hd, _, hb, _⟩ := searchPBP_sound hs
      obtain ⟨u, hu⟩ := unitOf_ok (amount_ne_nil hb) ⟨a, c, hd⟩
      obtain ⟨q0, hq⟩ := parseDecimal_ok hb
      refine ⟨some (if (u.map lowerChar).contains 't' ||
        hasSub (lc "trillion") (u.map lowerChar) then q0 * 1000 else q0), ?_⟩
      simp only [extract_market_size, if_neg ht, hs, hu, hq]

/-! ### Shape of the company-name capturing group -/

theorem matches_lit_optDot {w x : List Char}
    (h : Matches (.seq (.lit w) (.opt (.cls (fun c => c = '.')))) x) :
    x = w ∨ x = w ++ ['.'] := by
  obtain ⟨y, z, hx, hy, hz⟩ := matches_seq h
  have hyw := matches_lit hy
  subst hyw
  rcases matches_opt hz with hz0 | hzc
  · subst hz0; left; rw [hx, List.append_nil]
  · obtain ⟨ch, hc, hcd⟩ := matches_cls hzc
    have hdot : ch = '.' := by simpa using hcd
    subst hdot
    right; rw [hx, hc]

theorem coSuffix_shape {x : List Char} (h : Matches coSuffix x) :
    x = lc "Inc" ∨ x = lc "Inc." ∨ x = lc "LLC" ∨ x = lc "Corp" ∨ x = lc "Corp." ∨
      x = lc "Co" ∨ x = lc "Co." := by
  unfold coSuffix alts L at h
  simp only [List.foldl] at h
  rcases matches_alt h with h3 | hco
  · rcases matches_alt h3 with h2 | hcorp
    · rcases matches_alt h2 with hinc | hllc
      · rcases matches_lit_optDot hinc with he | he
        · exact Or.inl he
        · refine Or.inr (Or.inl ?_); rw [he]; decide
      · exact Or.inr (Or.inr (Or.inl (matches_lit hllc)))
    · rcases matches_lit_optDot hcorp with he | he
      · exact Or.inr (Or.inr (Or.inr (Or.inl he)))
      · refine Or.inr (Or.inr (Or.inr (Or.inr (Or.inl ?_)))); rw [he]; decide
  · rcases matches_lit_optDot hco with he | he
    · exact Or.inr (Or.inr (Or.inr (Or.inr (Or.inr (Or.inl he)))))
    · refine Or.inr (Or.inr (Or.inr (Or.inr (Or.inr (Or.inr ?_))))); rw [he]; decide

theorem coBody_shape {x : List Char}
    (h : Matches coBody1 x ∨ Matches coBody2 x) :
    ∃ core suff, x = core ++ suff ∧ 3 ≤ core.length ∧ core.length ≤ 31 ∧
      (suff = [] ∨ Matches coSuffix suff) := by
  rcases h with h | h
  · unfold coBody1 at h
    obtain ⟨y, z, hx, hy, hz⟩ := matches_seq h
    obtain ⟨ch, hyc, _⟩ := matches_cls hy
    obtain ⟨r, sf, hz2, hr, hsf⟩ := matches_seq hz
    obtain ⟨hr2, hr30, _⟩ := matches_repCls hr
    refine ⟨ch :: r, sf, ?_, by simp; omega, by simp; omega, ?_⟩
    · rw [hx, hyc, hz2]; rfl
    · rcases matches_opt hsf with h0 | hms
      · exact Or.inl h0
      · exact Or.inr hms
  · unfold coBody2 at h
    obtain ⟨y, z, hx, hy, hz⟩ := matches_seq h
    obtain ⟨ch, hyc, _⟩ := matches_cls hy
    obtain ⟨r, sf, hz2, hr, hsf⟩ := matches_seq hz
    obtain ⟨hr2, hr30, _⟩ := matches_repCls hr
    exact ⟨ch :: r, sf, by rw [hx, hyc, hz2]; rfl, by simp; omega, by simp; omega, Or.inr hsf⟩

/-! ### The valuation lookahead span never contains a newline -/

theorem valPre_no_newline {a : List Char} (h : Matches valPre a) :
    ∃ cue mid dol, a = cue ++ mid ++ dol ∧ ∀ c ∈ mid, (c != '\n') = true := by
  unfold valPre dotLazy at h
  obtain ⟨cue, z, ha, _, hz⟩ := matches_seq h
  obtain ⟨mid, dol, hz2, hmid, _⟩ := matches_seq hz
  exact ⟨cue, mid, dol, by rw [ha, hz2, List.append_assoc], matches_lazyCls hmid⟩

/-! ### Claim theorems -/

set_option maxRecDepth 8000

unseal Rat.mul Rat.inv Rat.add in
/-- C1: `extract_funding_amount` collects every non-overlapping occurrence of
the funding pattern over the entire text in order of appearance, normalizes
each amount to millions (K/thousand-scaled divided by 1000, M-scaled
unchanged), and returns the absent sentinel exactly when there are zero
occurrences (or the text is empty).  In particular "seeking $500K"
contributes 0.5 and "raised $1M last year, now raising $5M" yields
[1.0, 5.0] in that order; in general the result list has one normalized
entry per `finditer` occurrence. -/
theorem funding_collects_every_occurrence_normalized :
    extract_funding_amount (lc "seeking $500K") = .ok (some [1/2]) ∧
    extract_funding_amount (lc "raised $1M last year, now raising $5M") = .ok (some [1, 5]) ∧
    (∀ t : List Char, extract_funding_amount t = .ok none ↔
      t = [] ∨ finditer fundPre amountBody fundPost t = []) ∧
    ∀ (t : List Char) (l : List ℚ), extract_funding_amount t = .ok (some l) →
      l.length = (finditer fundPre amountBody fundPost t).length := by
  refine ⟨by decide, by decide, ?_, ?_⟩
  · intro t
    constructor
    · intro h
      by_cases ht : t = []
      · exact Or.inl ht
      · right
        obtain ⟨ys, hys, hlen⟩ := mapM_ok_of_all fundingStep _ (fundingStep_all_ok t)
        simp only [extract_funding_amount, if_neg ht, hys] at h
        by_cases hy0 : ys = []
        · refine List.length_eq_zero.mp ?_
          rw [← hlen, hy0]
          rfl
        · rw [if_neg hy0] at h
          simp at h
    · intro h
      rcases h with ht | hfin
      · simp [extract_funding_amount, ht]
      · by_cases ht : t = []
        · simp [extract_funding_amount, ht]
        · have hmm : (finditer fundPre amountBody fundPost t).mapM fundingStep = .ok [] := by
            rw [hfin]; rfl
          simp only [extract_funding_amount, if_neg ht, hmm]
          rfl
  · intro t l h
    by_cases ht : t = []
    · simp [extract_funding_amount, ht] at h
    · obtain ⟨ys, hys, hlen⟩ := mapM_ok_of_all fundingStep _ (fundingStep_all_ok t)
      simp only [extract_funding_amount, if_neg ht, hys] at h
      by_cases hy0 : ys = []
      · rw [if_pos hy0] at h
        simp at h
      · rw [if_neg hy0] at h
        have h2 : some ys = some l := Except.ok.inj h
        rw [← Option.some.inj h2]
        exact hlen

unseal Rat.mul Rat.inv Rat.add in
/-- C1 witness: the length correspondence instantiated at "seeking $500K",
whose extraction yields the one-element list [0.5]. -/
theorem funding_collects_every_occurrence_normalized_witness :
    ([(1 : ℚ)/2]).length = (finditer fundPre amountBody fundPost (lc "seeking $500K")).length :=
  funding_collects_every_occurrence_normalized.2.2.2 (lc "seeking $500K") [(1 : ℚ)/2]
    funding_collects_every_occurrence_normalized.1

/-- C2: on every input string each extractor terminates and returns a value,
never raising: the three money extractors (whose Python bodies contain the
partial operations `split`-on-group, list index 1 and `float`) always return
`Except.ok`, and the company-name and founders extractors always return an
`Option` value.  The `Except.ok` results rest on the fact that the captured
amount is a nonempty substring of the whole match, so splitting the match on
it always yields at least two pieces and the index access cannot fail. -/
theorem extractors_total_never_raise (t : List Char) :
    (∃ v, extract_funding_amount t = .ok v) ∧
    (∃ v, extract_valuation t = .ok v) ∧
    (∃ v, extract_market_size t = .ok v) ∧
    (extract_company_name t = none ∨ ∃ n, extract_company_name t = some n) ∧
    (extract_founders t = none ∨ ∃ f, extract_founders t = some f) := by
  refine ⟨extract_funding_amount_ok t, extract_valuation_ok t, extract_market_size_ok t, ?_, ?_⟩
  · match h : extract_company_name t with
    | none => exact Or.inl rfl
    | some n => exact Or.inr ⟨n, rfl⟩
  · match h : extract_founders t with
    | none => exact Or.inl rfl
    | some f => exact Or.inr ⟨f, rfl⟩

/-- C3 counterexample: in "worth\n$5M" the cue "worth" is separated from the
amount "$5M" only by a newline, yet `extract_valuation` does NOT return
5.0 — the valuation pattern is compiled without `re.DOTALL`, so its `.*?`
cannot cross a line break. -/
theorem valuation_cue_newline_counterexample :
    extract_valuation (lc "worth\n$5M") ≠ .ok (some 5) := by decide

unseal Rat.mul Rat.inv Rat.add in
/-- C3 amended: the valuation pattern's intervening span may NOT cross line
breaks (no `re.DOTALL`): with a newline between the only cue and the amount
the extractor returns absent, while arbitrary same-line intervening text is
crossed; in every successful valuation match the span between the cue and
the optional currency symbol contains no newline character. -/
theorem valuation_span_no_line_break :
    extract_valuation (lc "worth\n$5M") = .ok none ∧
    extract_valuation (lc "worth many multiples, $5M") = .ok (some 5) ∧
    ∀ (t g0 g1 rest : List Char),
      searchPBP valPre amountBody valPost t = some (g0, g1, rest) →
      ∃ cue mid tail, g0 = cue ++ mid ++ tail ∧ ∀ c ∈ mid, c ≠ '\n' := by
  refine ⟨by decide, by decide, ?_⟩
  intro t g0 g1 rest h
  obtain ⟨a, c, hg, hpre, _, _⟩ := searchPBP_sound h
  obtain ⟨cue, mid, dol, ha, hmid⟩ := valPre_no_newline hpre
  refine ⟨cue, mid, dol ++ g1 ++ c, ?_, fun ch hc => ?_⟩
  · rw [hg, ha]; simp [List.append_assoc]
  · simpa using hmid ch hc

/-- C3 witness: the no-newline span decomposition instantiated at the match
of "worth many multiples, $5M". -/
theorem valuation_span_no_line_break_witness :
    ∃ cue mid tail, lc "worth many multiples, $5M" = cue ++ mid ++ tail ∧
      ∀ c ∈ mid, c ≠ '\n' :=
  valuation_span_no_line_break.2.2 (lc "worth many multiples, $5M")
    (lc "worth many multiples, $5M") (lc "5") [] (by decide)

/-- C4 counterexample: a text containing both "About Acme Corp" and
"Beta Inc Pitch Deck" need not yield exactly "Acme Corp": the capturing
group's greedy `[A-Za-z0-9\s]{2,30}` keeps consuming letters, digits and
whitespace past "Acme Corp", so "About Acme Corp and Beta Inc Pitch Deck"
yields "Acme Corp and Beta Inc Pitch De". -/
theorem company_priority_counterexample :
    extract_company_name (lc "About Acme Corp and Beta Inc Pitch Deck") ≠
      some (lc "Acme Corp") := by decide

/-- C4 amended: pattern 1 always takes priority over pattern 2 regardless of
document order and the leftmost match wins, but the captured name extends
greedily up to 30 class characters past the initial capital, so exactly
"Acme Corp" is returned only when the occurrence is delimited by a
non-`[A-Za-z0-9\s]` character: "Beta Inc Pitch Deck. About Acme Corp."
yields "Acme Corp" (pattern 1 wins although the pattern-2 text comes
first), while the undelimited text yields the overrun capture. -/
theorem company_pattern1_priority_delimited :
    extract_company_name (lc "Beta Inc Pitch Deck. About Acme Corp.") = some (lc "Acme Corp") ∧
    extract_company_name (lc "About Acme Corp and Beta Inc Pitch Deck") =
      some (lc "Acme Corp and Beta Inc Pitch De") := ⟨by decide, by decide⟩

/-- C5 counterexample: the spec's example output is not what the code
produces — the name pattern's `\s` matches the newline right after the
"Team" cue, so the first collected name is "Team\nJane Smith", not
"Jane Smith". -/
theorem founders_example_counterexample :
    extract_founders (lc "Team\nJane Smith, CEO\nBob Lee, CTO\nMarket\nOur market is huge") ≠
      some [lc "Jane Smith", lc "Bob Lee"] := by decide

/-- C5 amended: the founders extractor is bounded by the team section (a
name+title pair after the section-ending cue "Market" is never included),
collects names in order of appearance, but the two-or-three-capitalized-word
pattern can absorb the team cue itself across the newline: the example text
yields ["Team\nJane Smith", "Bob Lee"], and appending "John Doe, CEO" after
the "Market" cue changes nothing. -/
theorem founders_bounded_with_cue_glued :
    extract_founders (lc "Team\nJane Smith, CEO\nBob Lee, CTO\nMarket\nOur market is huge") =
      some [lc "Team\nJane Smith", lc "Bob Lee"] ∧
    extract_founders (lc "Team\nJane Smith, CEO\nBob Lee, CTO\nMarket\nJohn Doe, CEO") =
      some [lc "Team\nJane Smith", lc "Bob Lee"] := ⟨by decide, by decide⟩

unseal Rat.mul Rat.inv Rat.add in
/-- C6 counterexample: million-scale amounts are NOT always passed through
unchanged: in "worth 3 times revenue, about $3M" the first qualifying match
carries the unit M, but the unit-classification substring (everything after
the first occurrence of the digit "3" in the match) is
"times revenue, about $", whose letter 'b' (in "about") triggers the
billions branch, returning 3000.0 instead of 3.0. -/
theorem valuation_million_scale_counterexample :
    extract_valuation (lc "worth 3 times revenue, about $3M") = .ok (some 3000) ∧
    (3000 : ℚ) ≠ 3 := ⟨by decide, by decide⟩

unseal Rat.mul Rat.inv Rat.add in
/-- C6 amended: the valuation extractor uses only the first qualifying
cue-plus-amount match (later mentions ignored) and multiplies by 1000 those
matches whose unit-classification substring (the stripped text after the
first occurrence of the amount's digit string in the whole match) contains
'b' or "billion"; when the digits first occur at the amount itself this is
billion-scale ×1000 and million-scale pass-through: "valued at $1.2 billion"
yields 1200.0 and "valuation of $5M, later worth $9B" yields 5.0. -/
theorem valuation_first_match_normalization :
    extract_valuation (lc "valued at $1.2 billion") = .ok (some 1200) ∧
    extract_valuation (lc "valuation of $5M, later worth $9B") = .ok (some 5) ∧
    extract_valuation (lc "worth 3 times revenue, about $3M") = .ok (some 3000) :=
  ⟨by decide, by decide, by decide⟩

unseal Rat.mul Rat.inv Rat.add in
/-- C7 counterexample: in "TAM 4 times growth, $4B" the case-insensitive
single-letter unit T matches the 't' of "times", so the match is "TAM 4 t"
and the amount 4 is classified as trillion-scale and multiplied by 1000,
returning 4000.0 — the claimed billion-scale pass-through of the $4B figure
does not happen. -/
theorem market_billion_scale_counterexample :
    extract_market_size (lc "TAM 4 times growth, $4B") = .ok (some 4000) ∧
    (4000 : ℚ) ≠ 4 := ⟨by decide, by decide⟩

unseal Rat.mul Rat.inv Rat.add in
/-- C7 amended: the market-size extractor performs a case-insensitive
first-match-only search of a cue followed by the nearest amount-plus-unit,
multiplies by 1000 matches whose unit-classification substring contains 't'
or "trillion", passes the others through, and is absent on no match; the
single-letter units B/T match case-insensitively even at the start of
ordinary words, so an amount followed by e.g. "times" qualifies and is
classified as trillion-scale.  "TAM of $3 trillion" yields 3000.0,
"Market Size: $2B" yields 2.0, and cue-free text yields absent. -/
theorem market_first_match_normalization :
    extract_market_size (lc "TAM of $3 trillion") = .ok (some 3000) ∧
    extract_market_size (lc "Market Size: $2B") = .ok (some 2) ∧
    extract_market_size (lc "no relevant cue here") = .ok none ∧
    extract_market_size (lc "TAM 4 times growth, $4B") = .ok (some 4000) :=
  ⟨by decide, by decide, by decide, by decide⟩

/-- C8 counterexample: the capitalized core before any legal suffix can be
31 characters long, not 30: the pattern is one `[A-Z]` character plus 2-30
`[A-Za-z0-9\s]` characters, and on "About " followed by a 31-letter word the
extractor returns the full 31-character name (with no legal suffix). -/
theorem company_core_31_chars_counterexample :
    extract_company_name (lc "About Abcdefghijklmnopqrstuvwxyzabcde") =
      some (lc "Abcdefghijklmnopqrstuvwxyzabcde") ∧
    (lc "Abcdefghijklmnopqrstuvwxyzabcde").length = 31 := ⟨by decide, by decide⟩

/-- C8 amended: every name returned by the company-name extractor is the
whitespace-trim of a core followed by an optional legal suffix, where the
core (the initial capital plus the bounded class repetition) has between 3
and 31 characters — the bound is 31, not 30, because `[A-Z]` contributes one
character on top of the 2-30 of `[A-Za-z0-9\s]{2,30}`. -/
theorem company_core_at_most_31 :
    ∀ (t name : List Char), extract_company_name t = some name →
      ∃ core suff, name = pyStrip (core ++ suff) ∧ 3 ≤ core.length ∧ core.length ≤ 31 ∧
        (suff = [] ∨ suff = lc "Inc" ∨ suff = lc "Inc." ∨ suff = lc "LLC" ∨
         suff = lc "Corp" ∨ suff = lc "Corp." ∨ suff = lc "Co" ∨ suff = lc "Co.") := by
  intro t name h
  unfold extract_company_name at h
  by_cases ht : t = []
  · rw [if_pos ht] at h
    exact Option.noConfusion h
  · rw [if_neg ht] at h
    have shape : ∀ {g1 : List Char}, name = pyStrip g1 →
        (Matches coBody1 g1 ∨ Matches coBody2 g1) →
        ∃ core suff, name = pyStrip (core ++ suff) ∧ 3 ≤ core.length ∧ core.length ≤ 31 ∧
          (suff = [] ∨ suff = lc "Inc" ∨ suff = lc "Inc." ∨ suff = lc "LLC" ∨
           suff = lc "Corp" ∨ suff = lc "Corp." ∨ suff = lc "Co" ∨ suff = lc "Co.") := by
      intro g1 hname hb
      obtain ⟨core, suff, hx, h3, h31, hsf⟩ := coBody_shape hb
      refine ⟨core, suff, by rw [hname, hx], h3, h31, ?_⟩
      rcases hsf with h0 | hms
      · exact Or.inl h0
      · exact Or.inr (coSuffix_shape hms)
    match h1 : searchPBP coPre1 coBody1 .eps t with
    | some (g0, g1, rest) =>
      rw [h1] at h
      obtain ⟨_, _, _, _, hb, _⟩ := searchPBP_sound h1
      exact shape (Option.some.inj h).symm (Or.inl hb)
    | none =>
      rw [h1] at h
      match h2 : searchPBP .eps coBody2 coPost2 t with
      | some (g0, g1, rest) =>
        rw [h2] at h
        obtain ⟨_, _, _, _, hb, _⟩ := searchPBP_sound h2
        exact shape (Option.some.inj h).symm (Or.inr hb)
      | none =>
        rw [h2] at h
        exact Option.noConfusion h

/-- C8 witness: the core/suffix decomposition instantiated at
"About Acme Inc.", whose returned name is "Acme Inc". -/
theorem company_core_at_most_31_witness :
    extract_company_name (lc "About Acme Inc.") = some (lc "Acme Inc") ∧
    ∃ core suff, lc "Acme Inc" = pyStrip (core ++ suff) ∧ 3 ≤ core.length ∧
      core.length ≤ 31 ∧
      (suff = [] ∨ suff = lc "Inc" ∨ suff = lc "Inc." ∨ suff = lc "LLC" ∨
       suff = lc "Corp" ∨ suff = lc "Corp." ∨ suff = lc "Co" ∨ suff = lc "Co.") :=
  ⟨by decide, company_core_at_most_31 (lc "About Acme Inc.") (lc "Acme Inc") (by decide)⟩

unseal Rat.mul Rat.inv Rat.add in
/-- C9: the valuation scale classification inspects the substring of the
whole match after the FIRST occurrence of the amount's digit string: in
"worth 5 times revenue, about $5M" the first "5" occurs in the intervening
text, the extracted unit string is "times revenue, about $" (containing 'b'
from "about"), and the million-scale amount is classified as billions,
returning 5000.0 instead of 5.0. -/
theorem valuation_split_first_occurrence_bug :
    extract_valuation (lc "worth 5 times revenue, about $5M") = .ok (some 5000) ∧
    unitOf (lc "worth 5 times revenue, about $5M") (lc "5") =
      .ok (lc "times revenue, about $") := ⟨by decide, by decide⟩

unseal Rat.mul Rat.inv Rat.add in
/-- C10: the funding pattern requires no word boundary and no funding
context: the digit run inside "401k" is collected as 0.401 and "10M users"
contributes 10.0, so `funding_sought` may contain amounts that are not
funding figures at all. -/
theorem funding_no_word_boundary :
    extract_funding_amount (lc "their 401k plan") = .ok (some [401/1000]) ∧
    extract_funding_amount (lc "we have 10M users") = .ok (some [10]) :=
  ⟨by decide, by decide⟩
